import Mathlib

/-!
Verification of the dependency-guessing core of glide (`cmd/guess_deps.go`).

The Go source is shallowly embedded: `map[string]bool` sets become
`List String` with membership-guarded insertion, the `go/build` context and
the helpers that live outside `cmd/guess_deps.go` (`BuildCtxt.Import`,
`ImportDir`, `findPkg`, `NormalizeName`, `excludeSubtree`, `GOPATH`) are
modelled from the spec as an explicit `BuildCtxt` record of resolver
functions, and the unbounded recursion of `findDeps` is made total with a
fuel parameter (`none` = the fuel ran out, i.e. the source recursion has
not come back yet).
-/

namespace Glide

/-- Model of Go `strings.HasPrefix` at the character-list level:
`isPre p l` is true when `p` is a prefix of `l`. -/
def isPre : List Char → List Char → Bool
  | [], _ => true
  | _ :: _, [] => false
  | a :: as, c :: cs => a == c && isPre as cs

/-- Go `strings.HasPrefix s pre`. -/
def hasPre (s pre : String) : Bool := isPre pre.data s.data

/-- Go `strings.TrimPrefix s pre`: drops `pre` from the front of `s` when it
is a prefix, otherwise returns `s` unchanged. -/
def trimPre (s pre : String) : String :=
  if isPre pre.data s.data then String.mk (s.data.drop pre.data.length) else s

/-- Go `strings.Trim s "/"`: removes leading and trailing `/` characters
(`os.PathSeparator` on the target platform). -/
def trimSlash (s : String) : String :=
  String.mk (((s.data.dropWhile (fun c => c == '/')).reverse.dropWhile
    (fun c => c == '/')).reverse)

/-- Go `filepath.Base` for the slash-separated, non-degenerate paths the
scanner builds: the last `/`-separated component of the path. -/
def baseName (s : String) : String :=
  String.mk ((s.data.reverse.takeWhile (fun c => !(c == '/'))).reverse)

/-- Characters of a path up to and including the `k`-th slash, exclusive of
anything after the following segment: `takeTopLevel 1 l` keeps the first two
`/`-separated segments of `l`. -/
def takeTopLevel : Nat → List Char → List Char
  | _, [] => []
  | k, c :: cs =>
    if c == '/' then
      match k with
      | 0 => []
      | j + 1 => c :: takeTopLevel j cs
    else c :: takeTopLevel k cs

/-- Modelled from the spec: `NormalizeName` (the NameNormalizer collaborator,
whose implementation is outside `cmd/guess_deps.go`) maps a full import path
to its top-level identity by stripping sub-package suffixes; following the
spec's example (`example.org/lib/sub` compacts to `example.org/lib`), the
model keeps the first two path segments. Only the first component of the Go
function's pair result is used by the embedded code. -/
def NormalizeName (name : String) : String := String.mk (takeTopLevel 1 name.data)

/-- Resolved unit of source, as produced by the PackageLocator: its
canonical import path, the import names it declares, and whether it belongs
to the standard library (`pkg.Goroot`). -/
structure Package where
  importPath : String
  imports : List String
  goroot : Bool
deriving DecidableEq

/-- Resolution errors, with the `*build.NoGoError` variant (`noGo`, the
recoverable "no buildable source here" condition) distinguished from every
other resolution failure. -/
inductive ImpErr where
  | noGo
  | failure (msg : String)
deriving DecidableEq

/-- Modelled from the spec: the package classification returned by `findPkg`
(outside `cmd/guess_deps.go`): standard library, cgo pseudo-package, or an
ordinary package. -/
inductive PType where
  | ptypeGoroot
  | ptypeCgo
  | ptypeOther
deriving DecidableEq

/-- Modelled from the spec: the ambient build context and PackageLocator
collaborator (`BuildCtxt.Import`, `BuildCtxt.ImportDir`, `findPkg` and the
`GOPATH` root live outside `cmd/guess_deps.go`). `imp name` models
`b.Import(name, cwd, 0)`: following `go/build`, it returns a package value
even on error (a partial result whose fields the caller may still read),
paired with the optional error. `importDir path` models
`buildContext.ImportDir(path, 0)` likewise. The working directory is fixed
for a run and therefore not a parameter. -/
structure BuildCtxt where
  imp : String → Package × Option ImpErr
  importDir : String → Package × Option ImpErr
  findPkgType : String → PType
  gopath : String

/-- Insertion into a `map[string]bool` used as a set: `m[k] = true`. -/
def addKey (k : String) (m : List String) : List String :=
  if k ∈ m then m else k :: m

/-- Embedding of `findDeps` (guess_deps.go lines 103-150). The Go recursion
is made total by fuel: `none` means the fuel ran out. The shared mutable
`soFar` map is threaded explicitly, so the result carries the final map
together with the optional error that `findDeps` returns; the Go loop's
early `return err` becomes an absorbing error state in the fold over
`pkg.Imports`. -/
def findDeps (b : BuildCtxt) : Nat → List String → String → String →
    Option (List String × Option ImpErr)
  | 0, _, _, _ => none
  | fuel + 1, soFar, name, vpath =>
    if name = "C" then some (soFar, none)
    else
      match b.imp name with
      | (_, some e) => some (soFar, some e)
      | (pkg, none) =>
        if pkg.goroot then some (soFar, none)
        else
          let vp := if vpath = "" then pkg.importPath else vpath
          let realName := trimPre pkg.importPath (vp ++ "/vendor/")
          let soFar1 :=
            if vp ≠ NormalizeName realName then addKey realName soFar else soFar
          pkg.imports.foldl (fun acc imp =>
            match acc with
            | none => none
            | some (s, some e) => some (s, some e)
            | some (s, none) =>
              if imp ∈ s then some (s, none)
              else
                match findDeps b fuel s (vp ++ "/vendor/" ++ imp) vp with
                | none => none
                | some (s1, none) => some (s1, none)
                | some (s1, some _) => findDeps b fuel s1 imp vp)
            (some (soFar1, none))

/-- Embedding of `compactDeps` (guess_deps.go lines 157-165): every key of
the discovery set is mapped through `NormalizeName` and the results are
deduplicated into a fresh set. -/
def compactDeps (soFar : List String) : List String :=
  soFar.foldr (fun k acc => addKey (NormalizeName k) acc) []

/-- Directory tree handed to `filepath.Walk` in the fallback scan: a
directory name together with its subdirectories, in traversal order. Files
are not modelled; `ImportDir` on a file path fails and such failures are
skipped by the walk callback anyway. -/
inductive FsTree where
  | dir (dname : String) (children : List FsTree)

/-- Name of the root directory of a tree. -/
def FsTree.dname : FsTree → String
  | .dir n _ => n

/-- Subdirectories of the root of a tree. -/
def FsTree.children : FsTree → List FsTree
  | .dir _ cs => cs

/-- Per-directory body of the `filepath.Walk` callback in `GuessDeps`
(guess_deps.go lines 41-70): resolve the directory, skip it on any error or
when it is a `GOROOT` package, and otherwise add each of its imports to the
discovery set unless the import carries the project name as a prefix, equals
the project name, or `findPkg` classifies it as `GOROOT` or cgo. -/
def scanDir (b : BuildCtxt) (name : String) (deps : List String)
    (path : String) : List String :=
  match b.importDir path with
  | (_, some _) => deps
  | (pkg, none) =>
    if pkg.goroot then deps
    else
      pkg.imports.foldl (fun acc imp =>
        if hasPre imp name then acc
        else if imp = name then acc
        else
          match b.findPkgType imp with
          | .ptypeGoroot => acc
          | .ptypeCgo => acc
          | .ptypeOther => addKey imp acc) deps

mutual

/-- Embedding of the `filepath.Walk` traversal in `GuessDeps`
(guess_deps.go lines 32-71): the callback runs on the directory itself and
then on each subdirectory in order. A directory whose base name is `vendor`
or `testdata` is skipped entirely (`filepath.SkipDir`): it is neither
resolved nor descended into. The skip predicate (`excludeSubtree`, outside
`cmd/guess_deps.go`) is modelled from the spec: it holds for directories
literally named for the vendor or test-fixture overlay. -/
def walkTree (b : BuildCtxt) (name : String) : FsTree → String →
    List String → List String
  | .dir _ cs, path, deps =>
    if baseName path = "vendor" ∨ baseName path = "testdata" then deps
    else walkChildren b name cs path (scanDir b name deps path)

/-- Walk of a list of sibling subdirectories of the directory at `path`,
left to right, threading the discovery set. -/
def walkChildren (b : BuildCtxt) (name : String) : List FsTree → String →
    List String → List String
  | [], _, deps => deps
  | t :: ts, path, deps =>
    walkChildren b name ts path
      (walkTree b name t (path ++ "/" ++ t.dname) deps)

end

/-- Embedding of `guessPackageName` (guess_deps.go lines 169-186). On a
successful resolution of `base` the canonical import path is returned; on
failure, when `base` lies under `GOPATH` the `GOPATH` prefix and surrounding
path separators are stripped, and otherwise the function falls through to
`pkg.ImportPath` of the partial package returned by the failed resolution.
The `os.Getwd()` failure branch (returning "main") is an environment
failure outside this model. -/
def guessPackageName (b : BuildCtxt) (base : String) : String :=
  match b.imp base with
  | (pkg, none) => pkg.importPath
  | (pkg, some _) =>
    if hasPre base b.gopath then trimSlash (trimPre base b.gopath)
    else pkg.importPath

/-- Configuration result of `GuessDeps`: the guessed project name and the
dependency names written into `config.Imports` (a set; the iteration order
of the Go map is irrelevant). -/
structure Config where
  name : String
  imports : List String
deriving DecidableEq

/-- Embedding of `GuessDeps` (guess_deps.go lines 17-95). The initial
direct walk runs from `base`; its error is inspected only to decide whether
the fallback tree scan runs (exactly when it is a `*build.NoGoError`), and
is otherwise discarded. The discovery set is then compacted, `base` is
deleted from it, and a configuration is always produced. `none` models a
run whose direct walk never comes back (the fuel ran out); the
`GetBuildContext` failure branch is outside the model. -/
def GuessDeps (b : BuildCtxt) (fuel : Nat) (base : String) (tree : FsTree) :
    Option Config :=
  match findDeps b fuel [] base "" with
  | none => none
  | some (deps0, err) =>
    let name := guessPackageName b base
    let deps1 :=
      match err with
      | some .noGo => walkTree b name tree base deps0
      | _ => deps0
    some { name := name, imports := (compactDeps deps1).erase base }

end Glide

namespace Glide

/-! Basic properties of the string helpers. -/

/-- Characterization of the prefix test: `isPre p l` holds exactly when `l`
extends `p`. -/
theorem isPre_iff (p : List Char) : ∀ l : List Char,
    isPre p l = true ↔ ∃ t, l = p ++ t := by
  induction p with
  | nil =>
    intro l
    simp [isPre]
  | cons a as ih =>
    intro l
    cases l with
    | nil => simp [isPre]
    | cons c cs =>
      simp only [isPre, Bool.and_eq_true, beq_iff_eq, List.cons_append]
      constructor
      · rintro ⟨rfl, h2⟩
        obtain ⟨t, rfl⟩ := (ih cs).mp h2
        exact ⟨t, rfl⟩
      · rintro ⟨t, ht⟩
        injection ht with h1 h2
        subst h1
        subst h2
        exact ⟨rfl, (ih _).mpr ⟨t, rfl⟩⟩

/-- A list is always a prefix of itself extended. -/
theorem isPre_append (p t : List Char) : isPre p (p ++ t) = true :=
  (isPre_iff p (p ++ t)).mpr ⟨t, rfl⟩

/-- `takeTopLevel` returns a prefix of its input. -/
theorem takeTopLevel_pre (l : List Char) : ∀ k : Nat,
    ∃ t, l = takeTopLevel k l ++ t := by
  induction l with
  | nil => intro k; exact ⟨[], rfl⟩
  | cons c cs ih =>
    intro k
    cases hc : c == '/' with
    | true =>
      cases k with
      | zero => exact ⟨c :: cs, by simp [takeTopLevel, hc]⟩
      | succ j =>
        obtain ⟨t, ht⟩ := ih j
        exact ⟨t, by simpa [takeTopLevel, hc] using ht⟩
    | false =>
      obtain ⟨t, ht⟩ := ih k
      exact ⟨t, by simpa [takeTopLevel, hc] using ht⟩

/-- `takeTopLevel` is idempotent. -/
theorem takeTopLevel_idem (l : List Char) : ∀ k : Nat,
    takeTopLevel k (takeTopLevel k l) = takeTopLevel k l := by
  induction l with
  | nil => intro k; simp [takeTopLevel]
  | cons c cs ih =>
    intro k
    cases hc : c == '/' with
    | true =>
      cases k with
      | zero => simp [takeTopLevel, hc]
      | succ j => simp [takeTopLevel, hc, ih j]
    | false => simp [takeTopLevel, hc, ih k]

/-- The normalized (top-level) identity of a path is one of its prefixes. -/
theorem hasPre_normalize (s : String) : hasPre s (NormalizeName s) = true := by
  obtain ⟨t, ht⟩ := takeTopLevel_pre s.data 1
  show isPre (takeTopLevel 1 s.data) s.data = true
  have h2 := isPre_append (takeTopLevel 1 s.data) t
  rw [← ht] at h2
  exact h2

/-- Normalization is idempotent. -/
theorem NormalizeName_idem (s : String) :
    NormalizeName (NormalizeName s) = NormalizeName s :=
  congrArg String.mk (takeTopLevel_idem s.data 1)

/-- A string whose top-level identity is `nm` carries `nm` as a prefix. -/
theorem hasPre_of_normalize_eq {s nm : String} (h : NormalizeName s = nm) :
    hasPre s nm = true := h ▸ hasPre_normalize s

/-! Properties of the set operations. -/

/-- Membership after a guarded map insertion. -/
theorem mem_addKey {x a : String} {m : List String} :
    x ∈ addKey a m ↔ x = a ∨ x ∈ m := by
  unfold addKey
  split
  · rename_i h
    constructor
    · exact Or.inr
    · rintro (rfl | hx)
      · exact h
      · exact hx
  · simp

/-- Insertion only grows the set. -/
theorem subset_addKey (a : String) (m : List String) : m ⊆ addKey a m :=
  fun _ hx => mem_addKey.mpr (Or.inr hx)

/-- Membership in the compacted set: exactly the normalized images of the
discovery set. -/
theorem mem_compactDeps {x : String} : ∀ {S : List String},
    x ∈ compactDeps S ↔ ∃ k, k ∈ S ∧ x = NormalizeName k := by
  intro S
  induction S with
  | nil => simp [compactDeps]
  | cons k S ih =>
    show x ∈ addKey (NormalizeName k) (compactDeps S) ↔ _
    rw [mem_addKey, ih]
    constructor
    · rintro (rfl | ⟨k2, hk2, rfl⟩)
      · exact ⟨k, by simp⟩
      · exact ⟨k2, by simp [hk2]⟩
    · rintro ⟨k2, hk2, rfl⟩
      rcases List.mem_cons.mp hk2 with rfl | h2
      · exact Or.inl rfl
      · exact Or.inr ⟨k2, h2, rfl⟩


/-! Unfolding lemmas for `findDeps`, one per branch of its body. -/

/-- With no fuel the walk has not come back. -/
theorem findDeps_zero (b : BuildCtxt) (soFar : List String) (name vpath : String) :
    findDeps b 0 soFar name vpath = none := rfl

/-- The cgo pseudo-package is skipped immediately. -/
theorem findDeps_C (b : BuildCtxt) (fuel : Nat) (soFar : List String)
    (vpath : String) : findDeps b (fuel + 1) soFar "C" vpath = some (soFar, none) := by
  rw [findDeps]
  simp

/-- A failed resolution is returned as the error, with the set unchanged. -/
theorem findDeps_err (b : BuildCtxt) (fuel : Nat) (soFar : List String)
    (name vpath : String) (pkg : Package) (e : ImpErr) (hC : name ≠ "C")
    (hbi : b.imp name = (pkg, some e)) :
    findDeps b (fuel + 1) soFar name vpath = some (soFar, some e) := by
  rw [findDeps, if_neg hC, hbi]

/-- A standard-library package stops the descent with the set unchanged. -/
theorem findDeps_goroot (b : BuildCtxt) (fuel : Nat) (soFar : List String)
    (name vpath : String) (pkg : Package) (hC : name ≠ "C")
    (hbi : b.imp name = (pkg, none)) (hg : pkg.goroot = true) :
    findDeps b (fuel + 1) soFar name vpath = some (soFar, none) := by
  rw [findDeps, if_neg hC, hbi]
  simp [hg]

/-- Master unfolding for a successful non-`GOROOT` resolution: the walk
registers the de-vendored name (unless it normalizes to the vendor anchor)
and folds the per-import descent over the declared imports. -/
theorem findDeps_succ_ok (b : BuildCtxt) (fuel : Nat) (soFar : List String)
    (name vpath : String) (pkg : Package) (vp rn : String) (s1 : List String)
    (hC : name ≠ "C") (hbi : b.imp name = (pkg, none)) (hg : pkg.goroot = false)
    (hvp : vp = if vpath = "" then pkg.importPath else vpath)
    (hrn : rn = trimPre pkg.importPath (vp ++ "/vendor/"))
    (hs1 : s1 = if vp ≠ NormalizeName rn then addKey rn soFar else soFar) :
    findDeps b (fuel + 1) soFar name vpath =
      List.foldl (fun acc imp =>
        match acc with
        | none => none
        | some (s, some e) => some (s, some e)
        | some (s, none) =>
          if imp ∈ s then some (s, none)
          else
            match findDeps b fuel s (vp ++ "/vendor/" ++ imp) vp with
            | none => none
            | some (s2, none) => some (s2, none)
            | some (s2, some _) => findDeps b fuel s2 imp vp)
        (some (s1, none)) pkg.imports := by
  subst hvp
  subst hrn
  subst hs1
  rw [findDeps, if_neg hC, hbi]
  simp [hg]

/-! Generic invariants of a fold whose accumulator is an optional state. -/

/-- A fold step that preserves `none` keeps the whole fold at `none`. -/
theorem foldl_none_eq {α β : Type} (f : Option β → α → Option β)
    (hnone : ∀ a, f none a = none) :
    ∀ l : List α, List.foldl f none l = none := by
  intro l
  induction l with
  | nil => rfl
  | cons a l ih => rw [List.foldl_cons, hnone a]; exact ih

/-- A reflexive transitive relation preserved by each successful fold step
relates the initial state to any successful final state. -/
theorem foldl_rel {α β : Type} (f : Option β → α → Option β) (R : β → β → Prop)
    (hrefl : ∀ x, R x x) (htrans : ∀ x y z, R x y → R y z → R x z)
    (hnone : ∀ a, f none a = none)
    (hstep : ∀ x a y, f (some x) a = some y → R x y) :
    ∀ (l : List α) (x y : β), List.foldl f (some x) l = some y → R x y := by
  intro l
  induction l with
  | nil =>
    intro x y h
    injection h with h2
    exact h2 ▸ hrefl x
  | cons a l ih =>
    intro x y h
    rw [List.foldl_cons] at h
    rcases hfa : f (some x) a with _ | x2
    · rw [hfa, foldl_none_eq f hnone l] at h
      cases h
    · rw [hfa] at h
      exact htrans x x2 y (hstep x a x2 hfa) (ih x2 y h)

/-- A set is contained in its possibly-guarded extension. -/
theorem subset_ite_addKey (c : Prop) [Decidable c] (rn : String) (m : List String) :
    m ⊆ (if c then addKey rn m else m) := by
  split
  · exact subset_addKey _ _
  · exact fun _ hx => hx

/-- The discovery set only grows during the direct walk. -/
theorem findDeps_mono (b : BuildCtxt) : ∀ (fuel : Nat) (soFar : List String)
    (name vpath : String) (s : List String) (o : Option ImpErr),
    findDeps b fuel soFar name vpath = some (s, o) → soFar ⊆ s := by
  intro fuel
  induction fuel with
  | zero =>
    intro soFar name vpath s o h
    rw [findDeps_zero] at h
    cases h
  | succ n ih =>
    intro soFar name vpath s o h
    by_cases hC : name = "C"
    · subst hC
      rw [findDeps_C] at h
      injection h with h2
      injection h2 with h3 h4
      subst h3
      exact fun _ hx => hx
    · rcases hbi : b.imp name with ⟨pkg, e⟩
      cases e with
      | some err =>
        rw [findDeps_err b n soFar name vpath pkg err hC hbi] at h
        injection h with h2
        injection h2 with h3 h4
        subst h3
        exact fun _ hx => hx
      | none =>
        rcases hg : pkg.goroot with _ | _
        · rw [findDeps_succ_ok b n soFar name vpath pkg _ _ _ hC hbi hg rfl rfl rfl] at h
          have h1 := subset_ite_addKey
            ((if vpath = "" then pkg.importPath else vpath) ≠
              NormalizeName (trimPre pkg.importPath
                ((if vpath = "" then pkg.importPath else vpath) ++ "/vendor/")))
            (trimPre pkg.importPath
              ((if vpath = "" then pkg.importPath else vpath) ++ "/vendor/")) soFar
          refine fun x hx => ?_
          have h2 := foldl_rel _ (fun (u v : List String × Option ImpErr) => u.1 ⊆ v.1)
            (fun _ _ hx => hx) (fun _ _ _ hu hv _ hx => hv (hu hx))
            (fun _ => rfl) ?_ pkg.imports _ (s, o) h
          · exact h2 (h1 hx)
          · rintro ⟨s2, o2⟩ a ⟨s3, o3⟩ hf
            cases o2 with
            | some e2 =>
              injection hf with h2
              injection h2 with h3 h4
              subst h3
              exact fun _ hx => hx
            | none =>
              dsimp only at hf
              by_cases hmem : a ∈ s2
              · rw [if_pos hmem] at hf
                injection hf with h2
                injection h2 with h3 h4
                subst h3
                exact fun _ hx => hx
              · rw [if_neg hmem] at hf
                rcases hv : findDeps b n s2
                    ((if vpath = "" then pkg.importPath else vpath) ++ "/vendor/" ++ a)
                    (if vpath = "" then pkg.importPath else vpath) with _ | ⟨s4, o4⟩
                · rw [hv] at hf
                  cases hf
                · rw [hv] at hf
                  cases o4 with
                  | none =>
                    injection hf with h2
                    injection h2 with h3 h4
                    subst h3
                    exact ih _ _ _ _ _ hv
                  | some e4 =>
                    exact fun x hx =>
                      ih _ _ _ _ _ hf (ih _ _ _ _ _ hv hx)
        · rw [findDeps_goroot b n soFar name vpath pkg hC hbi hg] at h
          injection h with h2
          injection h2 with h3 h4
          subst h3
          exact fun _ hx => hx


/-- Provenance of a key inserted by the direct walk anchored at `R`: it is
the de-vendored import path of some successfully resolved non-`GOROOT`
package, and its normalized identity differs from the anchor. -/
def InsertedFrom (b : BuildCtxt) (R k : String) : Prop :=
  ∃ nm pkg, b.imp nm = (pkg, none) ∧ pkg.goroot = false ∧
    k = trimPre pkg.importPath (R ++ "/vendor/") ∧ NormalizeName k ≠ R

/-- Every key the direct walk adds under a fixed non-empty vendor anchor `R`
was either already present or carries the `InsertedFrom` provenance. -/
theorem findDeps_new (b : BuildCtxt) (R : String) (hR : R ≠ "") :
    ∀ (fuel : Nat) (soFar : List String) (name : String) (s : List String)
      (o : Option ImpErr), findDeps b fuel soFar name R = some (s, o) →
      ∀ k, k ∈ s → k ∈ soFar ∨ InsertedFrom b R k := by
  intro fuel
  induction fuel with
  | zero =>
    intro soFar name s o h
    rw [findDeps_zero] at h
    cases h
  | succ n ih =>
    intro soFar name s o h
    by_cases hC : name = "C"
    · subst hC
      rw [findDeps_C] at h
      injection h with h2
      injection h2 with h3 h4
      subst h3
      exact fun k hk => Or.inl hk
    · rcases hbi : b.imp name with ⟨pkg, e⟩
      cases e with
      | some err =>
        rw [findDeps_err b n soFar name R pkg err hC hbi] at h
        injection h with h2
        injection h2 with h3 h4
        subst h3
        exact fun k hk => Or.inl hk
      | none =>
        rcases hg : pkg.goroot with _ | _
        · rw [findDeps_succ_ok b n soFar name R pkg R
            (trimPre pkg.importPath (R ++ "/vendor/")) _ hC hbi hg
            (if_neg hR).symm rfl rfl] at h
          have hins : ∀ k, k ∈ (if R ≠ NormalizeName (trimPre pkg.importPath
              (R ++ "/vendor/")) then
                addKey (trimPre pkg.importPath (R ++ "/vendor/")) soFar
              else soFar) → k ∈ soFar ∨ InsertedFrom b R k := by
            intro k hk
            by_cases hq : R = NormalizeName (trimPre pkg.importPath (R ++ "/vendor/"))
            · rw [if_neg (not_not_intro hq)] at hk
              exact Or.inl hk
            · rw [if_pos hq] at hk
              rcases mem_addKey.mp hk with rfl | hk2
              · exact Or.inr ⟨name, pkg, hbi, hg, rfl, fun he => hq he.symm⟩
              · exact Or.inl hk2
          intro k hk
          have h2 := foldl_rel _ (fun (u v : List String × Option ImpErr) =>
              ∀ k2, k2 ∈ v.1 → k2 ∈ u.1 ∨ InsertedFrom b R k2)
            (fun _ _ hx => Or.inl hx)
            (fun x y z hxy hyz k2 hk2 => (hyz k2 hk2).elim (fun hy => hxy k2 hy) Or.inr)
            (fun _ => rfl) ?_ pkg.imports _ (s, o) h
          · rcases h2 k hk with hk1 | hins2
            · exact hins k hk1
            · exact Or.inr hins2
          · rintro ⟨s2, o2⟩ a ⟨s3, o3⟩ hf
            cases o2 with
            | some e2 =>
              injection hf with h2
              injection h2 with h3 h4
              subst h3
              exact fun k2 hk2 => Or.inl hk2
            | none =>
              dsimp only at hf
              by_cases hmem : a ∈ s2
              · rw [if_pos hmem] at hf
                injection hf with h2
                injection h2 with h3 h4
                subst h3
                exact fun k2 hk2 => Or.inl hk2
              · rw [if_neg hmem] at hf
                rcases hv : findDeps b n s2 (R ++ "/vendor/" ++ a) R with _ | ⟨s4, o4⟩
                · rw [hv] at hf
                  cases hf
                · rw [hv] at hf
                  cases o4 with
                  | none =>
                    injection hf with h2
                    injection h2 with h3 h4
                    subst h3
                    exact ih _ _ _ _ hv
                  | some e4 =>
                    intro k2 hk2
                    rcases ih _ _ _ _ hf k2 hk2 with hk3 | hins2
                    · exact ih _ _ _ _ hv k2 hk3
                    · exact Or.inr hins2
        · rw [findDeps_goroot b n soFar name R pkg hC hbi hg] at h
          injection h with h2
          injection h2 with h3 h4
          subst h3
          exact fun k hk => Or.inl hk

/-- Every key in the result of the top-level direct walk (called with the
empty vendor anchor) witnesses a successful root resolution and carries the
`InsertedFrom` provenance anchored at the root's canonical import path —
provided that path is non-empty when the root resolves. -/
theorem findDeps_root (b : BuildCtxt) (fuel : Nat) (base : String)
    (s : List String) (o : Option ImpErr)
    (hR : (b.imp base).2 = none → (b.imp base).1.importPath ≠ "")
    (h : findDeps b fuel [] base "" = some (s, o)) :
    ∀ k, k ∈ s →
      (b.imp base).2 = none ∧ InsertedFrom b (b.imp base).1.importPath k := by
  cases fuel with
  | zero =>
    rw [findDeps_zero] at h
    cases h
  | succ n =>
    by_cases hC : base = "C"
    · subst hC
      rw [findDeps_C] at h
      injection h with h2
      injection h2 with h3 h4
      subst h3
      exact fun k hk => absurd hk (List.not_mem_nil k)
    · rcases hbi : b.imp base with ⟨pkg, e⟩
      cases e with
      | some err =>
        rw [findDeps_err b n [] base "" pkg err hC hbi] at h
        injection h with h2
        injection h2 with h3 h4
        subst h3
        exact fun k hk => absurd hk (List.not_mem_nil k)
      | none =>
        have hR2 : pkg.importPath ≠ "" := by
          have h5 := hR (by rw [hbi])
          rwa [hbi] at h5
        rcases hg : pkg.goroot with _ | _
        · rw [findDeps_succ_ok b n [] base "" pkg pkg.importPath
            (trimPre pkg.importPath (pkg.importPath ++ "/vendor/")) _ hC hbi hg
            (by simp) rfl rfl] at h
          intro k hk
          refine ⟨rfl, ?_⟩
          have hgoal : InsertedFrom b pkg.importPath k := by
            have hins : ∀ k2, k2 ∈ (if pkg.importPath ≠ NormalizeName
                (trimPre pkg.importPath (pkg.importPath ++ "/vendor/")) then
                  addKey (trimPre pkg.importPath (pkg.importPath ++ "/vendor/")) []
                else ([] : List String)) → InsertedFrom b pkg.importPath k2 := by
              intro k2 hk2
              by_cases hq : pkg.importPath = NormalizeName
                  (trimPre pkg.importPath (pkg.importPath ++ "/vendor/"))
              · rw [if_neg (not_not_intro hq)] at hk2
                exact absurd hk2 (List.not_mem_nil k2)
              · rw [if_pos hq] at hk2
                rcases mem_addKey.mp hk2 with rfl | hk3
                · exact ⟨base, pkg, hbi, hg, rfl, fun he => hq he.symm⟩
                · exact absurd hk3 (List.not_mem_nil k2)
            have h2 := foldl_rel _ (fun (u v : List String × Option ImpErr) =>
                ∀ k2, k2 ∈ v.1 → k2 ∈ u.1 ∨ InsertedFrom b pkg.importPath k2)
              (fun _ _ hx => Or.inl hx)
              (fun x y z hxy hyz k2 hk2 =>
                (hyz k2 hk2).elim (fun hy => hxy k2 hy) Or.inr)
              (fun _ => rfl) ?_ pkg.imports _ (s, o) h
            · rcases h2 k hk with hk1 | hins2
              · exact hins k hk1
              · exact hins2
            · rintro ⟨s2, o2⟩ a ⟨s3, o3⟩ hf
              cases o2 with
              | some e2 =>
                injection hf with h2
                injection h2 with h3 h4
                subst h3
                exact fun k2 hk2 => Or.inl hk2
              | none =>
                dsimp only at hf
                by_cases hmem : a ∈ s2
                · rw [if_pos hmem] at hf
                  injection hf with h2
                  injection h2 with h3 h4
                  subst h3
                  exact fun k2 hk2 => Or.inl hk2
                · rw [if_neg hmem] at hf
                  rcases hv : findDeps b n s2 (pkg.importPath ++ "/vendor/" ++ a)
                      pkg.importPath with _ | ⟨s4, o4⟩
                  · rw [hv] at hf
                    cases hf
                  · rw [hv] at hf
                    cases o4 with
                    | none =>
                      injection hf with h2
                      injection h2 with h3 h4
                      subst h3
                      exact findDeps_new b pkg.importPath hR2 n _ _ _ _ hv
                    | some e4 =>
                      intro k2 hk2
                      rcases findDeps_new b pkg.importPath hR2 n _ _ _ _ hf k2 hk2 with
                        hk3 | hins2
                      · exact findDeps_new b pkg.importPath hR2 n _ _ _ _ hv k2 hk3
                      · exact Or.inr hins2
          exact hgoal
        · rw [findDeps_goroot b n [] base "" pkg hC hbi hg] at h
          injection h with h2
          injection h2 with h3 h4
          subst h3
          exact fun k hk => absurd hk (List.not_mem_nil k)


/-! Invariants of the fallback tree scan. -/

/-- A fold whose step only grows the accumulator with keys satisfying `Q`
produces only old keys and `Q`-keys. -/
theorem foldl_grow {α : Type} (g : List String → α → List String)
    (Q : String → Prop) (hg : ∀ acc a k, k ∈ g acc a → k ∈ acc ∨ Q k) :
    ∀ (l : List α) (acc : List String) (k : String),
      k ∈ List.foldl g acc l → k ∈ acc ∨ Q k := by
  intro l
  induction l with
  | nil => intro acc k hk; exact Or.inl hk
  | cons a l ih =>
    intro acc k hk
    rw [List.foldl_cons] at hk
    rcases ih (g acc a) k hk with hk2 | hq
    · exact hg acc a k hk2
    · exact Or.inr hq

/-- A fold whose step extends the accumulator preserves all old keys. -/
theorem foldl_grow_sub {α : Type} (g : List String → α → List String)
    (hg : ∀ acc a, acc ⊆ g acc a) :
    ∀ (l : List α) (acc : List String), acc ⊆ List.foldl g acc l := by
  intro l
  induction l with
  | nil => intro acc; exact fun _ hx => hx
  | cons a l ih =>
    intro acc
    rw [List.foldl_cons]
    exact fun x hx => ih (g acc a) (hg acc a hx)

/-- Guard facts recorded for every key the fallback scan adds: the key does
not carry the project name as a prefix, differs from the project name, and
is classified as an ordinary package by `findPkg`. -/
def ScanKeep (b : BuildCtxt) (nm k : String) : Prop :=
  hasPre k nm = false ∧ k ≠ nm ∧ b.findPkgType k = PType.ptypeOther

/-- Every key `scanDir` adds satisfies the scan guards. -/
theorem scanDir_new (b : BuildCtxt) (nm : String) (deps : List String)
    (path : String) : ∀ k, k ∈ scanDir b nm deps path →
      k ∈ deps ∨ ScanKeep b nm k := by
  intro k hk
  unfold scanDir at hk
  rcases hd : b.importDir path with ⟨pkg, e⟩
  rw [hd] at hk
  cases e with
  | some err => exact Or.inl hk
  | none =>
    rcases hgr : pkg.goroot with _ | _
    · simp only [hgr, Bool.false_eq_true, if_false] at hk
      refine foldl_grow _ (ScanKeep b nm) ?_ pkg.imports deps k hk
      intro acc a k2 hk2
      rcases hp : hasPre a nm with _ | _
      · rw [if_neg (by simp [hp])] at hk2
        by_cases he : a = nm
        · rw [if_pos he] at hk2
          exact Or.inl hk2
        · rw [if_neg he] at hk2
          rcases ht : b.findPkgType a with _ | _ | _ <;> rw [ht] at hk2
          · exact Or.inl hk2
          · exact Or.inl hk2
          · rcases mem_addKey.mp hk2 with rfl | hk3
            · exact Or.inr ⟨hp, he, ht⟩
            · exact Or.inl hk3
      · rw [if_pos (by simp [hp])] at hk2
        exact Or.inl hk2
    · simp only [hgr, if_true] at hk
      exact Or.inl hk

/-- `scanDir` only extends the discovery set. -/
theorem scanDir_mono (b : BuildCtxt) (nm : String) (deps : List String)
    (path : String) : deps ⊆ scanDir b nm deps path := by
  unfold scanDir
  rcases hd : b.importDir path with ⟨pkg, e⟩
  cases e with
  | some err => exact fun _ hx => hx
  | none =>
    rcases hgr : pkg.goroot with _ | _
    · simp only [hgr, Bool.false_eq_true, if_false]
      refine foldl_grow_sub _ ?_ pkg.imports deps
      intro acc a
      by_cases hp : hasPre a nm = true
      · rw [if_pos hp]
        exact fun _ hx => hx
      · rw [if_neg hp]
        by_cases he : a = nm
        · rw [if_pos he]
          exact fun _ hx => hx
        · rw [if_neg he]
          rcases ht : b.findPkgType a with _ | _ | _
          · exact fun _ hx => hx
          · exact fun _ hx => hx
          · exact subset_addKey a acc
    · simp only [hgr, if_true]
      exact fun _ hx => hx

/-- Size-bounded joint invariant for the fallback walk: only scan-guarded
keys are ever added. -/
theorem walk_new_aux (b : BuildCtxt) (nm : String) : ∀ n : Nat,
    (∀ (t : FsTree) (path : String) (deps : List String) (k : String),
      sizeOf t ≤ n → k ∈ walkTree b nm t path deps → k ∈ deps ∨ ScanKeep b nm k) ∧
    (∀ (ts : List FsTree) (path : String) (deps : List String) (k : String),
      sizeOf ts ≤ n → k ∈ walkChildren b nm ts path deps →
        k ∈ deps ∨ ScanKeep b nm k) := by
  intro n
  induction n with
  | zero =>
    constructor
    · intro t path deps k hsize
      cases t with
      | dir a cs => simp [FsTree.dir.sizeOf_spec] at hsize
    · intro ts path deps k hsize
      cases ts with
      | nil =>
        intro hk
        rw [walkChildren] at hk
        exact Or.inl hk
      | cons t ts2 => simp [List.cons.sizeOf_spec] at hsize
  | succ n ih =>
    constructor
    · intro t path deps k hsize hk
      cases t with
      | dir a cs =>
        rw [walkTree] at hk
        by_cases hskip : baseName path = "vendor" ∨ baseName path = "testdata"
        · rw [if_pos hskip] at hk
          exact Or.inl hk
        · rw [if_neg hskip] at hk
          have hcs : sizeOf cs ≤ n := by
            simp [FsTree.dir.sizeOf_spec] at hsize
            omega
          rcases ih.2 cs path _ k hcs hk with hk2 | hq
          · exact scanDir_new b nm deps path k hk2
          · exact Or.inr hq
    · intro ts path deps k hsize hk
      cases ts with
      | nil =>
        rw [walkChildren] at hk
        exact Or.inl hk
      | cons t ts2 =>
        rw [walkChildren] at hk
        have hts : sizeOf ts2 ≤ n := by
          simp [List.cons.sizeOf_spec] at hsize
          omega
        have ht : sizeOf t ≤ n := by
          simp [List.cons.sizeOf_spec] at hsize
          omega
        rcases ih.2 ts2 path _ k hts hk with hk2 | hq
        · rcases ih.1 t _ deps k ht hk2 with hk3 | hq
          · exact Or.inl hk3
          · exact Or.inr hq
        · exact Or.inr hq

/-- Every key the fallback walk adds satisfies the scan guards. -/
theorem walkTree_new (b : BuildCtxt) (nm : String) (t : FsTree) (path : String)
    (deps : List String) (k : String) (hk : k ∈ walkTree b nm t path deps) :
    k ∈ deps ∨ ScanKeep b nm k :=
  (walk_new_aux b nm (sizeOf t)).1 t path deps k (le_refl _) hk

/-- Size-bounded joint monotonicity of the fallback walk. -/
theorem walk_mono_aux (b : BuildCtxt) (nm : String) : ∀ n : Nat,
    (∀ (t : FsTree) (path : String) (deps : List String),
      sizeOf t ≤ n → deps ⊆ walkTree b nm t path deps) ∧
    (∀ (ts : List FsTree) (path : String) (deps : List String),
      sizeOf ts ≤ n → deps ⊆ walkChildren b nm ts path deps) := by
  intro n
  induction n with
  | zero =>
    constructor
    · intro t path deps hsize
      cases t with
      | dir a cs => simp [FsTree.dir.sizeOf_spec] at hsize
    · intro ts path deps hsize
      cases ts with
      | nil =>
        rw [walkChildren]
        exact fun _ hx => hx
      | cons t ts2 => simp [List.cons.sizeOf_spec] at hsize
  | succ n ih =>
    constructor
    · intro t path deps hsize
      cases t with
      | dir a cs =>
        rw [walkTree]
        by_cases hskip : baseName path = "vendor" ∨ baseName path = "testdata"
        · rw [if_pos hskip]
          exact fun _ hx => hx
        · rw [if_neg hskip]
          have hcs : sizeOf cs ≤ n := by
            simp [FsTree.dir.sizeOf_spec] at hsize
            omega
          exact fun x hx =>
            ih.2 cs path _ hcs (scanDir_mono b nm deps path hx)
    · intro ts path deps hsize
      cases ts with
      | nil =>
        rw [walkChildren]
        exact fun _ hx => hx
      | cons t ts2 =>
        rw [walkChildren]
        have hts : sizeOf ts2 ≤ n := by
          simp [List.cons.sizeOf_spec] at hsize
          omega
        have ht : sizeOf t ≤ n := by
          simp [List.cons.sizeOf_spec] at hsize
          omega
        exact fun x hx =>
          ih.2 ts2 path _ hts (ih.1 t _ deps ht hx)

/-- The fallback walk only extends the discovery set. -/
theorem walkTree_mono (b : BuildCtxt) (nm : String) (t : FsTree) (path : String)
    (deps : List String) : deps ⊆ walkTree b nm t path deps :=
  (walk_mono_aux b nm (sizeOf t)).1 t path deps (le_refl _)


/-! The skip-list of the fallback walk. -/

/-- String concatenation acts on the underlying character lists. -/
theorem data_append (s t : String) : (s ++ t).data = s.data ++ t.data := rfl

/-- A run of characters satisfying the predicate followed by a failing
character is exactly what `takeWhile` keeps. -/
theorem takeWhile_append_stop (pred : Char → Bool) :
    ∀ (l1 l2 : List Char) (x : Char), (∀ c ∈ l1, pred c = true) →
      pred x = false → List.takeWhile pred (l1 ++ x :: l2) = l1 := by
  intro l1
  induction l1 with
  | nil =>
    intro l2 x hall hx
    simp [List.takeWhile_cons, hx]
  | cons c l1 ih =>
    intro l2 x hall hx
    have hc : pred c = true := hall c (by simp)
    simp only [List.cons_append, List.takeWhile_cons, hc, if_true]
    rw [ih l2 x (fun c2 hc2 => hall c2 (by simp [hc2])) hx]

/-- Base name of a path extended with a slash-free component. -/
theorem baseName_append (p w : String) (hw : ∀ c ∈ w.data, (c == '/') = false) :
    baseName (p ++ "/" ++ w) = w := by
  unfold baseName
  have hd : (p ++ "/" ++ w).data = (p.data ++ ['/']) ++ w.data := rfl
  rw [hd, List.reverse_append, List.reverse_append]
  have hall : ∀ c ∈ w.data.reverse, (fun c => !(c == '/')) c = true := by
    intro c hc
    simp only [Bool.not_eq_true']
    exact hw c (List.mem_reverse.mp hc)
  have hmid : (['/'].reverse ++ p.data.reverse) = '/' :: p.data.reverse := rfl
  rw [hmid, takeWhile_append_stop _ w.data.reverse p.data.reverse '/' hall rfl,
    List.reverse_reverse]

/-- A directory whose base name is on the skip-list contributes nothing: it
is neither resolved nor descended into. -/
theorem walkTree_skip (b : BuildCtxt) (nm : String) (t : FsTree) (path : String)
    (deps : List String)
    (h : baseName path = "vendor" ∨ baseName path = "testdata") :
    walkTree b nm t path deps = deps := by
  cases t with
  | dir a cs => rw [walkTree, if_pos h]

/-- Removing a skip-listed subdirectory anywhere in a sibling list leaves
the fallback walk unchanged. -/
theorem walkChildren_skipmid (b : BuildCtxt) (nm nskip : String)
    (sub : List FsTree) (h : nskip = "vendor" ∨ nskip = "testdata") :
    ∀ (pre post : List FsTree) (path : String) (deps : List String),
      walkChildren b nm (pre ++ FsTree.dir nskip sub :: post) path deps =
        walkChildren b nm (pre ++ post) path deps := by
  intro pre
  induction pre with
  | nil =>
    intro post path deps
    simp only [List.nil_append]
    rw [walkChildren]
    rw [walkTree_skip]
    rcases h with rfl | rfl
    · exact Or.inl (baseName_append path "vendor" (by decide))
    · exact Or.inr (baseName_append path "testdata" (by decide))
  | cons t pre ih =>
    intro post path deps
    simp only [List.cons_append]
    rw [walkChildren, walkChildren]
    exact ih post path _

/-! Unfolding helpers for `GuessDeps`. -/

/-- When the base resolves, the guessed name is its canonical import path. -/
theorem guessPackageName_ok (b : BuildCtxt) (base : String)
    (hok : (b.imp base).2 = none) :
    guessPackageName b base = (b.imp base).1.importPath := by
  unfold guessPackageName
  rcases hbi : b.imp base with ⟨pkg, e⟩
  cases e with
  | none => rfl
  | some err =>
    rw [hbi] at hok
    simp at hok

/-- Strategy selection of `GuessDeps` (guess_deps.go lines 30-72): the
fallback walk merges into the discovery set exactly when the direct walk
returned the no-buildable-source error; every other outcome leaves the set
as the direct walk produced it. -/
def mergeScan (b : BuildCtxt) (nm : String) (tree : FsTree) (base : String)
    (s : List String) : Option ImpErr → List String
  | some ImpErr.noGo => walkTree b nm tree base s
  | _ => s

/-- Full characterization of `GuessDeps` in terms of the direct walk's
outcome: the fallback walk runs exactly when the returned error is the
no-buildable-source condition, the set is compacted, and `base` is removed. -/
theorem GuessDeps_eq (b : BuildCtxt) (fuel : Nat) (base : String) (tree : FsTree)
    (s : List String) (e : Option ImpErr)
    (h : findDeps b fuel [] base "" = some (s, e)) :
    GuessDeps b fuel base tree = some
      { name := guessPackageName b base,
        imports :=
          (compactDeps (mergeScan b (guessPackageName b base) tree base s e)).erase
            base } := by
  unfold GuessDeps
  rw [h]
  cases e with
  | none => rfl
  | some err => cases err <;> rfl


/-! Concrete build contexts used to exercise the theorems. -/

/-- Classification of a resolution as standard library: it succeeds and the
resolved package carries the `GOROOT` flag. -/
def resolvesGoroot (b : BuildCtxt) (k : String) : Prop :=
  (b.imp k).2 = none ∧ (b.imp k).1.goroot = true

/-- Well-behaved context: the project `h/r` imports `x`, which resolves
plainly (no vendor overlay); the project directory declares the one
scan-level entry `q/z`. -/
def bW : BuildCtxt :=
  { imp := fun n =>
      if n = "h/r" then
        ({ importPath := "h/r", imports := ["x"], goroot := false }, none)
      else if n = "x" then
        ({ importPath := "x", imports := [], goroot := false }, none)
      else ({ importPath := n, imports := [], goroot := false },
        some (ImpErr.failure "nf"))
  , importDir := fun p =>
      if p = "h/r" then
        ({ importPath := "h/r", imports := ["q/z"], goroot := false }, none)
      else ({ importPath := p, imports := [], goroot := false }, some ImpErr.noGo)
  , findPkgType := fun _ => PType.ptypeOther
  , gopath := "/go" }

/-- Context in which every name resolution fails with a hard (non-`NoGo`)
error. -/
def bC1 : BuildCtxt :=
  { imp := fun n => ({ importPath := n, imports := [], goroot := false },
      some (ImpErr.failure "permission denied"))
  , importDir := fun p => ({ importPath := p, imports := [], goroot := false },
      some ImpErr.noGo)
  , findPkgType := fun _ => PType.ptypeOther
  , gopath := "/go" }

/-- Context where the root `h/r` resolves fine but its import `x` resolves
to a directory with no buildable source (a nested `NoGoError`), while the
tree scan of the root directory finds `q/z`. -/
def b8 : BuildCtxt :=
  { imp := fun n =>
      if n = "h/r" then
        ({ importPath := "h/r", imports := ["x"], goroot := false }, none)
      else if n = "x" then
        ({ importPath := "x", imports := [], goroot := false }, some ImpErr.noGo)
      else ({ importPath := n, imports := [], goroot := false },
        some (ImpErr.failure "nf"))
  , importDir := fun p =>
      if p = "h/r" then
        ({ importPath := "h/r", imports := ["q/z"], goroot := false }, none)
      else ({ importPath := p, imports := [], goroot := false }, some ImpErr.noGo)
  , findPkgType := fun _ => PType.ptypeOther
  , gopath := "/go" }

/-- Context whose resolver fails for every name with a generic not-found
error, echoing the requested path in the partial package, as `go/build`
documents for failed imports. -/
def b7 : BuildCtxt :=
  { imp := fun n => ({ importPath := n, imports := [], goroot := false },
      some (ImpErr.failure "cannot find package"))
  , importDir := fun p => ({ importPath := p, imports := [], goroot := false },
      some ImpErr.noGo)
  , findPkgType := fun _ => PType.ptypeOther
  , gopath := "/go" }

/-- Context with a self-importing sub-package: the root `a/b` imports
`a/b/c`, and `a/b/c` imports itself. Both paths normalize to the top-level
identity `a/b`, so the import relation restricted to distinct normalized
paths has no edge at all and is trivially acyclic. -/
def bcyc : BuildCtxt :=
  { imp := fun n =>
      if n = "a/b" then
        ({ importPath := "a/b", imports := ["a/b/c"], goroot := false }, none)
      else if n = "a/b/c" then
        ({ importPath := "a/b/c", imports := ["a/b/c"], goroot := false }, none)
      else ({ importPath := n, imports := [], goroot := false },
        some (ImpErr.failure "nf"))
  , importDir := fun p => ({ importPath := p, imports := [], goroot := false },
      some ImpErr.noGo)
  , findPkgType := fun _ => PType.ptypeOther
  , gopath := "/go" }

/-- Descending into the self-importing sub-package `a/b/c` never returns,
whatever the fuel: the self-reference is excluded from the discovery set by
the anchor comparison, so the recursion guard never fires for it. -/
theorem bcyc_aux : ∀ (fuel : Nat) (soFar : List String), "a/b/c" ∉ soFar →
    findDeps bcyc fuel soFar "a/b/c" "a/b" = none := by
  intro fuel
  induction fuel using Nat.strong_induction_on with
  | _ fuel ih =>
    cases fuel with
    | zero => intro soFar hmem; rfl
    | succ n =>
      intro soFar hmem
      rw [findDeps_succ_ok bcyc n soFar "a/b/c" "a/b"
        { importPath := "a/b/c", imports := ["a/b/c"], goroot := false }
        "a/b" (trimPre "a/b/c" ("a/b" ++ "/vendor/")) soFar
        (by decide) (by decide) rfl (by decide) rfl
        (by rw [if_neg (by decide)])]
      dsimp only
      rw [List.foldl_cons]
      dsimp only
      rw [if_neg hmem]
      cases n with
      | zero =>
        rw [findDeps_zero]
        rfl
      | succ m =>
        rw [findDeps_err bcyc m soFar ("a/b" ++ "/vendor/" ++ "a/b/c") "a/b"
          { importPath := "a/b" ++ "/vendor/" ++ "a/b/c", imports := [],
            goroot := false }
          (ImpErr.failure "nf") (by decide) (by decide)]
        dsimp only
        rw [ih (m + 1) (by omega) soFar hmem]
        rfl


/-! Claim theorems. -/

/-- C1, counterexample: the claim says a `ResolutionFailure` (any
non-`NoGoError`) from the direct walk aborts `GuessDeps` with that error and
produces no configuration. In the code the error from `findDeps` is
inspected only by the `switch err.(type)` with a single `*build.NoGoError`
case, so a hard failure is silently discarded and a configuration is still
returned: here every resolution fails with a hard error, yet the run
produces `some` configuration (named via the `GOPATH` fallback). -/
theorem claim_C1_counterexample :
    findDeps bC1 3 [] "/go/src/pj" "" =
      some ([], some (ImpErr.failure "permission denied")) ∧
    GuessDeps bC1 3 "/go/src/pj" (FsTree.dir "pj" []) =
      some { name := "src/pj", imports := [] } := by
  constructor
  · decide
  · decide

/-- C1, amended: a resolution failure other than the no-buildable-source
condition does not abort `GuessDeps`: the error is discarded, the fallback
scan is not activated, and a configuration is produced from whatever the
direct walk discovered before failing. -/
theorem claim_C1_amended (b : BuildCtxt) (fuel : Nat) (base : String)
    (tree : FsTree) (s : List String) (m : String)
    (h : findDeps b fuel [] base "" = some (s, some (ImpErr.failure m))) :
    GuessDeps b fuel base tree =
      some { name := guessPackageName b base,
             imports := (compactDeps s).erase base } :=
  GuessDeps_eq b fuel base tree s (some (ImpErr.failure m)) h

/-- C1, witness for the amended theorem at a concrete failing run. -/
theorem claim_C1_witness :
    GuessDeps bC1 4 "/go/src/pj" (FsTree.dir "pj" []) =
      some { name := guessPackageName bC1 "/go/src/pj",
             imports := (compactDeps []).erase "/go/src/pj" } :=
  claim_C1_amended bC1 4 "/go/src/pj" (FsTree.dir "pj" []) [] "permission denied"
    (by decide)

/-- C4: `compactDeps` produces exactly the set of normalized top-level
identities of the discovery set, and in particular two entries differing
only by a sub-package suffix collapse into the single top-level entry. -/
theorem claim_C4 :
    (∀ (S : List String) (x : String),
      x ∈ compactDeps S ↔ ∃ k, k ∈ S ∧ x = NormalizeName k) ∧
    compactDeps ["example.org/lib", "example.org/lib/sub"] = ["example.org/lib"] :=
  ⟨fun _ _ => mem_compactDeps, by decide⟩

/-- C7: the claim (and the function's own comment, "When unable to detect a
name goes to default of main") says `guessPackageName` falls back to a
generic placeholder identity when the root neither resolves nor lies under
`GOPATH`. The code instead falls through to `pkg.ImportPath` of the partial
package returned by the failed resolution (which `go/build` documents to
echo the requested path); the "main" default is reachable only when
`os.Getwd` fails. Here the root `myproj` fails to resolve and is outside
`GOPATH = /go`, yet the function returns `myproj`, not a placeholder. -/
theorem claim_C7_eval :
    guessPackageName b7 "myproj" = "myproj" ∧ "myproj" ≠ "main" := by
  constructor
  · decide
  · decide

/-- C8, counterexample: the claim says the fallback tree scan runs exactly
when the initial root resolution reports no buildable source, and that a
nested no-buildable-source condition does not activate it. Here the root
`h/r` resolves successfully, but its import `x` fails with the
no-buildable-source error; that nested error propagates out of `findDeps`
unchanged, the type switch in `GuessDeps` matches it, and the fallback scan
runs — the configuration contains `q/z`, which only the scan can find. -/
theorem claim_C8_counterexample :
    (b8.imp "h/r").2 = none ∧
    findDeps b8 9 [] "h/r" "" = some ([], some ImpErr.noGo) ∧
    GuessDeps b8 9 "h/r" (FsTree.dir "r" []) =
      some { name := "h/r", imports := ["q/z"] } := by
  refine ⟨by decide, by decide, by decide⟩

/-- C8, amended: the fallback tree scan runs exactly when the error
returned by the whole recursive direct walk is the no-buildable-source
condition — whether it arose at the project root or propagated from a
nested resolution; any other outcome leaves the discovery set as the direct
walk produced it. -/
theorem claim_C8_amended (b : BuildCtxt) (fuel : Nat) (base : String)
    (tree : FsTree) (s : List String) (e : Option ImpErr)
    (h : findDeps b fuel [] base "" = some (s, e)) :
    GuessDeps b fuel base tree = some
      { name := guessPackageName b base,
        imports :=
          (compactDeps (mergeScan b (guessPackageName b base) tree base s e)).erase
            base } :=
  GuessDeps_eq b fuel base tree s e h

/-- C8, witness for the amended theorem at a concrete nested-`NoGo` run. -/
theorem claim_C8_witness :
    GuessDeps b8 7 "h/r" (FsTree.dir "r" []) = some
      { name := guessPackageName b8 "h/r",
        imports :=
          (compactDeps (mergeScan b8 (guessPackageName b8 "h/r")
            (FsTree.dir "r" []) "h/r" [] (some ImpErr.noGo))).erase "h/r" } :=
  claim_C8_amended b8 7 "h/r" (FsTree.dir "r" []) [] (some ImpErr.noGo) (by decide)


/-- C2: no import whose top-level identity equals the project's own
identity — and in particular not the identity itself — appears in the final
compacted dependency set, under either the direct-walk or fallback-scan
strategy. The hypothesis reflects the PackageLocator contract: a successful
root resolution returns a non-empty canonical import path (with an empty
root path the code would re-anchor every nested vendor comparison at each
intermediate package instead of the project). -/
theorem claim_C2 (b : BuildCtxt) (fuel : Nat) (base : String) (tree : FsTree)
    (cfg : Config)
    (hroot : (b.imp base).2 = none → (b.imp base).1.importPath ≠ "")
    (hrun : GuessDeps b fuel base tree = some cfg) :
    ∀ d, d ∈ cfg.imports → d ≠ cfg.name ∧ NormalizeName d ≠ cfg.name := by
  intro d hd
  rcases hfd : findDeps b fuel [] base "" with _ | ⟨deps0, err⟩
  · unfold GuessDeps at hrun
    rw [hfd] at hrun
    simp at hrun
  · rw [GuessDeps_eq b fuel base tree deps0 err hfd] at hrun
    injection hrun with hc
    subst hc
    dsimp only at hd ⊢
    have hd2 : d ∈ compactDeps (mergeScan b (guessPackageName b base) tree base
        deps0 err) := List.mem_of_mem_erase hd
    obtain ⟨k, hkmem, rfl⟩ := mem_compactDeps.mp hd2
    have hk : k ∈ deps0 ∨ ScanKeep b (guessPackageName b base) k := by
      cases err with
      | none => exact Or.inl hkmem
      | some e2 =>
        cases e2 with
        | noGo => exact walkTree_new b (guessPackageName b base) tree base deps0 k hkmem
        | failure m => exact Or.inl hkmem
    rcases hk with hk0 | hkeep
    · obtain ⟨hok, nm2, pkg, hbi, hg, hkeq, hne⟩ :=
        findDeps_root b fuel base deps0 err hroot hfd k hk0
      have hnm : guessPackageName b base = (b.imp base).1.importPath :=
        guessPackageName_ok b base hok
      constructor
      · rw [hnm]
        exact hne
      · rw [NormalizeName_idem k, hnm]
        exact hne
    · obtain ⟨hpre, hneq, htype⟩ := hkeep
      constructor
      · intro hcontra
        have := hasPre_of_normalize_eq hcontra
        rw [hpre] at this
        cases this
      · rw [NormalizeName_idem k]
        intro hcontra
        have := hasPre_of_normalize_eq hcontra
        rw [hpre] at this
        cases this

/-- C2, witness: a concrete run whose single dependency differs from the
project identity. -/
theorem claim_C2_witness : "x" ≠ "h/r" ∧ NormalizeName "x" ≠ "h/r" :=
  claim_C2 bW 5 "h/r" (FsTree.dir "r" []) { name := "h/r", imports := ["x"] }
    (by decide) (by decide) "x" (by decide)


/-- Root package of the `b3` context. -/
def b3pkgRoot : Package :=
  { importPath := "h/r", imports := ["fmt", "C", "x"], goroot := false }

/-- Ordinary package of the `b3` context. -/
def b3pkgX : Package := { importPath := "x", imports := [], goroot := false }

/-- Standard-library package of the `b3` context. -/
def b3pkgFmt : Package := { importPath := "fmt", imports := [], goroot := true }

/-- Resolver of the `b3` context. -/
def b3imp (n : String) : Package × Option ImpErr :=
  if n = "h/r" then (b3pkgRoot, none)
  else if n = "x" then (b3pkgX, none)
  else if n = "fmt" then (b3pkgFmt, none)
  else ({ importPath := n, imports := [], goroot := false },
    some (ImpErr.failure "nf"))

/-- Context with a standard-library import: the project `h/r` imports the
`GOROOT` package `fmt`, the cgo sentinel `C`, and the ordinary package `x`;
the project directory declares scan-level imports `q/z` and `fmt`. The
classifier marks the `fmt` family as `GOROOT` and the `C` family as cgo. -/
def b3 : BuildCtxt :=
  { imp := b3imp
  , importDir := fun p =>
      if p = "h/r" then
        ({ importPath := "h/r", imports := ["q/z", "fmt"], goroot := false }, none)
      else ({ importPath := p, imports := [], goroot := false }, some ImpErr.noGo)
  , findPkgType := fun k =>
      if NormalizeName k = "fmt" then PType.ptypeGoroot
      else if NormalizeName k = "C" then PType.ptypeCgo
      else PType.ptypeOther
  , gopath := "/go" }

/-- In `b3` the only name that resolves to a `GOROOT` package is `fmt`. -/
theorem b3_goroot_only : ∀ j, resolvesGoroot b3 j → j = "fmt" := by
  intro j hres
  by_cases h1 : j = "h/r"
  · subst h1
    exact absurd hres.2 (by decide)
  · by_cases h2 : j = "x"
    · subst h2
      exact absurd hres.2 (by decide)
    · by_cases h3 : j = "fmt"
      · exact h3
      · obtain ⟨hok, _⟩ := hres
        have hok2 : (b3imp j).2 = none := hok
        unfold b3imp at hok2
        rw [if_neg h1, if_neg h2, if_neg h3] at hok2
        exact Option.noConfusion hok2

/-- The direct-walk sanity facts of the C3 hypotheses hold in `b3`. -/
theorem b3_hdirect : ∀ nm2 pkg, b3.imp nm2 = (pkg, none) → pkg.goroot = false →
    ¬ resolvesGoroot b3 (trimPre pkg.importPath
        ((b3.imp "h/r").1.importPath ++ "/vendor/")) ∧
    ¬ resolvesGoroot b3 (NormalizeName (trimPre pkg.importPath
        ((b3.imp "h/r").1.importPath ++ "/vendor/"))) ∧
    NormalizeName (trimPre pkg.importPath
        ((b3.imp "h/r").1.importPath ++ "/vendor/")) ≠ "C" := by
  intro nm2 pkg h1 h2
  by_cases ha : nm2 = "h/r"
  · subst ha
    have h3 : (b3pkgRoot, (none : Option ImpErr)) = (pkg, none) := h1
    injection h3 with h4 h5
    subst h4
    refine ⟨?_, ?_, by decide⟩
    · intro hr
      exact absurd (b3_goroot_only _ hr) (by decide)
    · intro hr
      exact absurd (b3_goroot_only _ hr) (by decide)
  · by_cases hb : nm2 = "x"
    · subst hb
      have h3 : (b3pkgX, (none : Option ImpErr)) = (pkg, none) := h1
      injection h3 with h4 h5
      subst h4
      refine ⟨?_, ?_, by decide⟩
      · intro hr
        exact absurd (b3_goroot_only _ hr) (by decide)
      · intro hr
        exact absurd (b3_goroot_only _ hr) (by decide)
    · by_cases hc : nm2 = "fmt"
      · subst hc
        have h3 : (b3pkgFmt, (none : Option ImpErr)) = (pkg, none) := h1
        injection h3 with h4 h5
        subst h4
        exact absurd h2 (by decide)
      · have h1b : b3imp nm2 = (pkg, none) := h1
        unfold b3imp at h1b
        rw [if_neg ha, if_neg hb, if_neg hc] at h1b
        injection h1b with h4 h5
        exact Option.noConfusion h5

/-- The scan-side sanity facts of the C3 hypotheses hold in `b3`. -/
theorem b3_hscan : ∀ k, b3.findPkgType k = PType.ptypeOther →
    ¬ resolvesGoroot b3 k ∧ ¬ resolvesGoroot b3 (NormalizeName k) ∧
    NormalizeName k ≠ "C" := by
  intro k ht
  have hdef : b3.findPkgType k = (if NormalizeName k = "fmt" then PType.ptypeGoroot
      else if NormalizeName k = "C" then PType.ptypeCgo else PType.ptypeOther) := rfl
  rw [hdef] at ht
  by_cases hf : NormalizeName k = "fmt"
  · rw [if_pos hf] at ht
    exact absurd ht (by decide)
  · rw [if_neg hf] at ht
    by_cases hc : NormalizeName k = "C"
    · rw [if_pos hc] at ht
      exact absurd ht (by decide)
    · refine ⟨?_, ?_, hc⟩
      · intro hr
        refine hf ?_
        rw [b3_goroot_only k hr]
        decide
      · intro hr
        exact hf (b3_goroot_only (NormalizeName k) hr)

/-- C3: neither the standard library nor the cgo pseudo-import `C` is ever
added to the discovery set — by the direct walk or by the fallback scan —
nor appears in the final compacted dependency set. The hypotheses are the
PackageLocator contract: a non-empty canonical root path; resolutions that
yield a non-`GOROOT` package have a de-vendored name (and top-level
identity) that is neither standard library nor the `C` family; and names
the classifier marks as ordinary are likewise neither. -/
theorem claim_C3 (b : BuildCtxt) (fuel : Nat) (base : String) (tree : FsTree)
    (cfg : Config)
    (hroot : (b.imp base).2 = none → (b.imp base).1.importPath ≠ "")
    (hdirect : ∀ nm2 pkg, b.imp nm2 = (pkg, none) → pkg.goroot = false →
      ¬ resolvesGoroot b (trimPre pkg.importPath
          ((b.imp base).1.importPath ++ "/vendor/")) ∧
      ¬ resolvesGoroot b (NormalizeName (trimPre pkg.importPath
          ((b.imp base).1.importPath ++ "/vendor/"))) ∧
      NormalizeName (trimPre pkg.importPath
          ((b.imp base).1.importPath ++ "/vendor/")) ≠ "C")
    (hscan : ∀ k, b.findPkgType k = PType.ptypeOther →
      ¬ resolvesGoroot b k ∧ ¬ resolvesGoroot b (NormalizeName k) ∧
      NormalizeName k ≠ "C")
    (hrun : GuessDeps b fuel base tree = some cfg) :
    (∀ d, d ∈ cfg.imports → d ≠ "C" ∧ ¬ resolvesGoroot b d) ∧
    (∀ s o, findDeps b fuel [] base "" = some (s, o) →
      ∀ k, k ∈ s → k ≠ "C" ∧ ¬ resolvesGoroot b k) ∧
    (∀ (t : FsTree) (path : String) (deps : List String) (k : String),
      k ∈ walkTree b (guessPackageName b base) t path deps →
      k ∈ deps ∨ (k ≠ "C" ∧ ¬ resolvesGoroot b k)) := by
  have hCnorm : NormalizeName "C" = "C" := by decide
  refine ⟨?_, ?_, ?_⟩
  · intro d hd
    rcases hfd : findDeps b fuel [] base "" with _ | ⟨deps0, err⟩
    · unfold GuessDeps at hrun
      rw [hfd] at hrun
      simp at hrun
    · rw [GuessDeps_eq b fuel base tree deps0 err hfd] at hrun
      injection hrun with hc
      subst hc
      dsimp only at hd
      have hd2 : d ∈ compactDeps (mergeScan b (guessPackageName b base) tree base
          deps0 err) := List.mem_of_mem_erase hd
      obtain ⟨k, hkmem, rfl⟩ := mem_compactDeps.mp hd2
      have hk : k ∈ deps0 ∨ ScanKeep b (guessPackageName b base) k := by
        cases err with
        | none => exact Or.inl hkmem
        | some e2 =>
          cases e2 with
          | noGo =>
            exact walkTree_new b (guessPackageName b base) tree base deps0 k hkmem
          | failure m => exact Or.inl hkmem
      rcases hk with hk0 | hkeep
      · obtain ⟨hok, nm2, pkg, hbi, hg, hkeq, hne⟩ :=
          findDeps_root b fuel base deps0 err hroot hfd k hk0
        obtain ⟨hd1, hd2b, hd3⟩ := hdirect nm2 pkg hbi hg
        rw [← hkeq] at hd2b hd3
        exact ⟨hd3, hd2b⟩
      · obtain ⟨hpre, hneq, htype⟩ := hkeep
        obtain ⟨hs1, hs2, hs3⟩ := hscan k htype
        exact ⟨hs3, hs2⟩
  · intro s o hfd k hk
    obtain ⟨hok, nm2, pkg, hbi, hg, hkeq, hne⟩ :=
      findDeps_root b fuel base s o hroot hfd k hk
    obtain ⟨hd1, hd2b, hd3⟩ := hdirect nm2 pkg hbi hg
    rw [← hkeq] at hd1 hd2b hd3
    refine ⟨?_, hd1⟩
    intro hkC
    rw [hkC, hCnorm] at hd3
    exact hd3 rfl
  · intro t path deps k hk
    rcases walkTree_new b (guessPackageName b base) t path deps k hk with hk0 | hkeep
    · exact Or.inl hk0
    · obtain ⟨hpre, hneq, htype⟩ := hkeep
      obtain ⟨hs1, hs2, hs3⟩ := hscan k htype
      refine Or.inr ⟨?_, hs1⟩
      intro hkC
      rw [hkC, hCnorm] at hs3
      exact hs3 rfl

/-- C3, witness: the concrete run of `b3` keeps only `x`, which is neither
the cgo sentinel nor standard library. -/
theorem claim_C3_witness : "x" ≠ "C" ∧ ¬ resolvesGoroot b3 "x" :=
  (claim_C3 b3 9 "h/r" (FsTree.dir "r" []) { name := "h/r", imports := ["x"] }
    (by decide) b3_hdirect b3_hscan (by decide)).1 "x" (by decide)


/-- C5: during the direct walk, an import is first attempted under the
vendor overlay of the traversal anchor (`vp ++ "/vendor/" ++ imp`) and the
plain name is attempted only when that fails; both attempts — and hence
every recursive descent — receive the same anchor `vp` that the caller
received (never the immediate parent's import path, since the anchor is
replaced only when it is empty, i.e. at the root). Stated for a package
with one declared import: if the import is already recorded nothing is
resolved; if the vendor attempt succeeds its outcome is the walk's outcome;
if it fails the walk's outcome is exactly the plain attempt's, with the
unchanged anchor. -/
theorem claim_C5 (b : BuildCtxt) (fuel : Nat) (soFar : List String)
    (name vp : String) (pkg : Package) (imp : String) (s1 : List String)
    (hvp : vp ≠ "") (hname : name ≠ "C")
    (hres : b.imp name = (pkg, none)) (hgo : pkg.goroot = false)
    (himps : pkg.imports = [imp])
    (hs1 : s1 = if vp ≠ NormalizeName (trimPre pkg.importPath (vp ++ "/vendor/"))
      then addKey (trimPre pkg.importPath (vp ++ "/vendor/")) soFar else soFar) :
    (imp ∈ s1 → findDeps b (fuel + 1) soFar name vp = some (s1, none)) ∧
    (imp ∉ s1 → ∀ s2, findDeps b fuel s1 (vp ++ "/vendor/" ++ imp) vp =
        some (s2, none) →
      findDeps b (fuel + 1) soFar name vp = some (s2, none)) ∧
    (imp ∉ s1 → ∀ s2 e, findDeps b fuel s1 (vp ++ "/vendor/" ++ imp) vp =
        some (s2, some e) →
      findDeps b (fuel + 1) soFar name vp = findDeps b fuel s2 imp vp) := by
  have hu := findDeps_succ_ok b fuel soFar name vp pkg vp
    (trimPre pkg.importPath (vp ++ "/vendor/")) s1 hname hres hgo
    (if_neg hvp).symm rfl hs1
  rw [hu, himps]
  refine ⟨?_, ?_, ?_⟩
  · intro hmem
    rw [List.foldl_cons]
    dsimp only
    rw [if_pos hmem]
    rfl
  · intro hmem s2 hv
    rw [List.foldl_cons]
    dsimp only
    rw [if_neg hmem, hv]
    rfl
  · intro hmem s2 e hv
    rw [List.foldl_cons]
    dsimp only
    rw [if_neg hmem, hv]
    rfl

/-- C5, witness: in `bW` the vendor attempt for `x` fails, so the walk's
outcome is exactly the plain attempt's outcome under the same anchor. -/
theorem claim_C5_witness :
    findDeps bW 4 [] "h/r" "h/r" = findDeps bW 3 [] "x" "h/r" :=
  (claim_C5 bW 3 [] "h/r" "h/r"
    { importPath := "h/r", imports := ["x"], goroot := false } "x" []
    (by decide) (by decide) (by decide) rfl rfl
    (by rw [if_neg (by decide)])).2.2
    (by decide) [] (ImpErr.failure "nf") (by decide)

/-- C6, counterexample: the claim says that, assuming the import relation
among distinct normalized paths is acyclic, every import path is descended
into at most once and `findDeps` terminates. In `bcyc` the root `a/b`
pulls in `a/b/c` and `a/b/c` imports itself; both normalize to `a/b`, so
the relation restricted to distinct normalized paths has no edges and is
trivially acyclic — yet the self-import is never recorded in the guard set
(its normalized identity equals the anchor), is re-descended forever, and
the top-level walk returns for no amount of fuel. -/
theorem claim_C6_counterexample : ¬ ∃ (fuel : Nat) (r : List String × Option ImpErr),
    findDeps bcyc fuel [] "a/b" "" = some r := by
  rintro ⟨fuel, r, h⟩
  have hnone : findDeps bcyc fuel [] "a/b" "" = none := by
    cases fuel with
    | zero => rfl
    | succ n =>
      rw [findDeps_succ_ok bcyc n [] "a/b" ""
        { importPath := "a/b", imports := ["a/b/c"], goroot := false }
        "a/b" (trimPre "a/b" ("a/b" ++ "/vendor/")) []
        (by decide) (by decide) rfl (by decide) rfl
        (by rw [if_neg (by decide)])]
      dsimp only
      rw [List.foldl_cons]
      dsimp only
      rw [if_neg (by decide : ¬ ("a/b/c" ∈ ([] : List String)))]
      cases n with
      | zero =>
        rw [findDeps_zero]
        rfl
      | succ m =>
        rw [findDeps_err bcyc m [] ("a/b" ++ "/vendor/" ++ "a/b/c") "a/b"
          { importPath := "a/b" ++ "/vendor/" ++ "a/b/c", imports := [],
            goroot := false }
          (ImpErr.failure "nf") (by decide) (by decide)]
        dsimp only
        rw [bcyc_aux (m + 1) [] (by decide)]
        rfl
  rw [hnone] at h
  cases h

/-- C6, amended: the guard protects exactly the recorded paths — the
discovery set grows monotonically through the walk, and an import already
present in it is skipped outright by the import loop (neither resolved nor
descended into). Imports excluded from the set as self-references are not
protected, and the recursion can then diverge even under the claim's
acyclicity assumption. -/
theorem claim_C6_amended :
    (∀ (b : BuildCtxt) (fuel : Nat) (soFar : List String) (name vpath : String)
      (s : List String) (o : Option ImpErr),
      findDeps b fuel soFar name vpath = some (s, o) → soFar ⊆ s) ∧
    (∀ (b : BuildCtxt) (fuel : Nat) (vp imp : String) (rest : List String)
      (s : List String), imp ∈ s →
      List.foldl (fun acc imp2 =>
        match acc with
        | none => none
        | some (s2, some e) => some (s2, some e)
        | some (s2, none) =>
          if imp2 ∈ s2 then some (s2, none)
          else
            match findDeps b fuel s2 (vp ++ "/vendor/" ++ imp2) vp with
            | none => none
            | some (s3, none) => some (s3, none)
            | some (s3, some _) => findDeps b fuel s3 imp2 vp)
        (some (s, none)) (imp :: rest) =
      List.foldl (fun acc imp2 =>
        match acc with
        | none => none
        | some (s2, some e) => some (s2, some e)
        | some (s2, none) =>
          if imp2 ∈ s2 then some (s2, none)
          else
            match findDeps b fuel s2 (vp ++ "/vendor/" ++ imp2) vp with
            | none => none
            | some (s3, none) => some (s3, none)
            | some (s3, some _) => findDeps b fuel s3 imp2 vp)
        (some (s, none)) rest) := by
  constructor
  · exact fun b => findDeps_mono b
  · intro b fuel vp imp rest s hmem
    rw [List.foldl_cons]
    dsimp only
    rw [if_pos hmem]

/-- C6, witness: the monotonicity half applied to a concrete run whose
seeded key survives into the final discovery set. -/
theorem claim_C6_witness : (["seed"] : List String) ⊆ ["x", "seed"] :=
  claim_C6_amended.1 bW 5 ["seed"] "h/r" "" ["x", "seed"] none (by decide)

/-- C9: a directory on the skip-list (`vendor` or `testdata`) is neither
resolved nor descended into by the fallback scan: removing such a subtree
anywhere in a sibling list leaves the walk's result unchanged, and removing
it from the scanned tree leaves the whole `GuessDeps` outcome unchanged —
so nothing found only inside it can reach the final dependency set. -/
theorem claim_C9 :
    (∀ (b : BuildCtxt) (nm nskip : String) (sub : List FsTree)
      (pre post : List FsTree) (path : String) (deps : List String),
      nskip = "vendor" ∨ nskip = "testdata" →
      walkChildren b nm (pre ++ FsTree.dir nskip sub :: post) path deps =
        walkChildren b nm (pre ++ post) path deps) ∧
    (∀ (b : BuildCtxt) (fuel : Nat) (base rn nskip : String) (sub : List FsTree)
      (pre post : List FsTree),
      nskip = "vendor" ∨ nskip = "testdata" →
      GuessDeps b fuel base (FsTree.dir rn (pre ++ FsTree.dir nskip sub :: post)) =
        GuessDeps b fuel base (FsTree.dir rn (pre ++ post))) := by
  constructor
  · intro b nm nskip sub pre post path deps h
    exact walkChildren_skipmid b nm nskip sub h pre post path deps
  · intro b fuel base rn nskip sub pre post h
    rcases hfd : findDeps b fuel [] base "" with _ | ⟨deps0, err⟩
    · unfold GuessDeps
      rw [hfd]
    · have hwt : walkTree b (guessPackageName b base)
          (FsTree.dir rn (pre ++ FsTree.dir nskip sub :: post)) base deps0 =
          walkTree b (guessPackageName b base) (FsTree.dir rn (pre ++ post))
            base deps0 := by
        rw [walkTree, walkTree]
        by_cases hskip : baseName base = "vendor" ∨ baseName base = "testdata"
        · rw [if_pos hskip, if_pos hskip]
        · rw [if_neg hskip, if_neg hskip,
            walkChildren_skipmid b (guessPackageName b base) nskip sub h pre post
              base (scanDir b (guessPackageName b base) deps0 base)]
      rw [GuessDeps_eq b fuel base _ deps0 err hfd,
        GuessDeps_eq b fuel base _ deps0 err hfd]
      have hms : mergeScan b (guessPackageName b base)
          (FsTree.dir rn (pre ++ FsTree.dir nskip sub :: post)) base deps0 err =
          mergeScan b (guessPackageName b base) (FsTree.dir rn (pre ++ post))
            base deps0 err := by
        cases err with
        | none => rfl
        | some e2 =>
          cases e2 with
          | failure m => rfl
          | noGo => exact hwt
      rw [hms]

/-- C9, witness: dropping a concrete `vendor` subtree does not change the
configuration produced for `bW`. -/
theorem claim_C9_witness :
    GuessDeps bW 5 "h/r" (FsTree.dir "r" [FsTree.dir "vendor" []]) =
      GuessDeps bW 5 "h/r" (FsTree.dir "r" []) :=
  claim_C9.2 bW 5 "h/r" "r" "vendor" [] [] [] (Or.inl rfl)

/-- Context whose only scannable directory `d` declares the import
`foobar/x`, which carries the project name `foo` as a plain string prefix
without a path-segment boundary. -/
def b10 : BuildCtxt :=
  { imp := fun n => ({ importPath := n, imports := [], goroot := false },
      some (ImpErr.failure "nf"))
  , importDir := fun p =>
      if p = "d" then
        ({ importPath := "d", imports := ["foobar/x"], goroot := false }, none)
      else ({ importPath := p, imports := [], goroot := false }, some ImpErr.noGo)
  , findPkgType := fun _ => PType.ptypeOther
  , gopath := "/go" }

/-- C10: during the fallback scan every import carrying the guessed project
name as a plain string prefix is skipped — membership in the walk's result
is unchanged for any such import — and no path-segment boundary is
required: with project name `foo` the import `foobar/x` is also skipped. -/
theorem claim_C10 :
    (∀ (b : BuildCtxt) (nm : String) (t : FsTree) (path : String)
      (deps : List String) (imp : String), hasPre imp nm = true →
      (imp ∈ walkTree b nm t path deps ↔ imp ∈ deps)) ∧
    scanDir b10 "foo" [] "d" = [] := by
  constructor
  · intro b nm t path deps imp hpre
    constructor
    · intro hmem
      rcases walkTree_new b nm t path deps imp hmem with hk | hkeep
      · exact hk
      · rw [hkeep.1] at hpre
        cases hpre
    · intro hmem
      exact walkTree_mono b nm t path deps hmem
  · decide

/-- C10, witness: the prefix-carrying import `foobar/x` never enters the
scan's result. -/
theorem claim_C10_witness :
    ("foobar/x" ∈ walkTree b10 "foo" (FsTree.dir "d" []) "d" [] ↔
      "foobar/x" ∈ ([] : List String)) :=
  claim_C10.1 b10 "foo" (FsTree.dir "d" []) "d" [] "foobar/x" (by decide)

end Glide
